import Mathlib

/-!
Verification of the Universe abstraction of `openmc/universe.py`.

The geometry model is embedded shallowly:

* points are rational 3-vectors (the numpy float arrays of the source are
  modelled with exact rationals);
* a `Cell` carries its id, a containment test (the `p in cell` capability
  delegated to the Region collaborator), an optional translation, an
  optional rotation matrix and a fill;
* a `Univ` is the CSG `Universe`: id, name, volume and the ordered
  `cells` mapping (an `OrderedDict` keyed by cell id is an association
  list in insertion order);
* a `Lat` is the Lattice collaborator, reduced to the two capabilities
  the source consumes: the ordered list of natural indices together with
  `get_universe(index)` (modelled as an association list of slots).

`Universe.find` mutates the numpy array `p` in place (`p -= translation`,
`p[:] = rotation_matrix.dot(p)`) and passes the very same array to the
recursive call, so the embedding threads the array contents explicitly:
`findStU` returns both the traversal result and the final contents of the
buffer aliasing the caller's array.
-/

namespace OpenMC

/-- Cartesian point with exact coordinates. -/
abbrev PointQ : Type := ℚ × ℚ × ℚ

/-- Translation vectors are points. -/
abbrev Vec3 : Type := PointQ

/-- Rotation matrix given by its three rows. -/
abbrev Mat3 : Type := PointQ × PointQ × PointQ

/-- Dot product of two 3-vectors. -/
def dotQ (a b : PointQ) : ℚ :=
  a.1 * b.1 + a.2.1 * b.2.1 + a.2.2 * b.2.2

/-- Matrix-vector product `R.dot(p)` of the source. -/
def mulVec (m : Mat3) (p : PointQ) : PointQ :=
  (dotQ m.1 p, dotQ m.2.1 p, dotQ m.2.2 p)

/-- Componentwise subtraction, the `p -= cell.translation` of the source. -/
def psub (p t : PointQ) : PointQ :=
  (p.1 - t.1, p.2.1 - t.2.1, p.2.2 - t.2.2)

mutual

/-- The `fill` of a cell: a material (by id), a distributed material
(list of material ids), void, a filling universe, or a lattice.  These are
the five `fill_type` values dispatched on by the source. -/
inductive Fill : Type where
  | material : Nat → Fill
  | distribmat : List Nat → Fill
  | void : Fill
  | funiv : Univ → Fill
  | flat : Lat → Fill

/-- A cell: id, containment test (Region capability), optional
translation, optional rotation and fill. -/
inductive Cell : Type where
  | mk : Nat → (PointQ → Bool) → Option Vec3 → Option Mat3 → Fill → Cell

/-- A CSG universe: id, name, optional volume, and the ordered cells
mapping (keys are cell ids, insertion order preserved). -/
inductive Univ : Type where
  | mk : Nat → String → Option ℚ → List (Nat × Cell) → Univ

/-- A lattice: id and its ordered slots, one `(natural index, universe)`
pair per slot. -/
inductive Lat : Type where
  | mk : Nat → List (List Int × Univ) → Lat

end

/-- Cell id. -/
def Cell.id : Cell → Nat
  | .mk i _ _ _ _ => i

/-- Containment test of the cell's region, the source's `p in cell`. -/
def Cell.region : Cell → PointQ → Bool
  | .mk _ r _ _ _ => r

/-- Optional translation of the cell. -/
def Cell.translation : Cell → Option Vec3
  | .mk _ _ t _ _ => t

/-- Optional rotation matrix of the cell. -/
def Cell.rotation : Cell → Option Mat3
  | .mk _ _ _ r _ => r

/-- Fill of the cell. -/
def Cell.fill : Cell → Fill
  | .mk _ _ _ _ f => f

/-- Universe id. -/
def Univ.uid : Univ → Nat
  | .mk i _ _ _ => i

/-- Universe name. -/
def Univ.uname : Univ → String
  | .mk _ n _ _ => n

/-- Universe volume. -/
def Univ.uvolume : Univ → Option ℚ
  | .mk _ _ v _ => v

/-- The ordered cells mapping of the universe. -/
def Univ.cells : Univ → List (Nat × Cell)
  | .mk _ _ _ cs => cs

/-- True exactly for the fills the source treats as leaves in `find`:
`fill_type in ('material', 'distribmat', 'void')`. -/
def Fill.isLeaf : Fill → Bool
  | .material _ => true
  | .distribmat _ => true
  | .void => true
  | .funiv _ => false
  | .flat _ => false

/-- An element of the sequence returned by `Universe.find`: the source
returns a Python list mixing universes and cells. -/
inductive Entry : Type where
  | univE : Univ → Entry
  | cellE : Cell → Entry

/-- Type of the external Lattice point-resolution capability consumed by
the `else` branch of `find` (`cell.fill.find(p)` on a lattice fill).  It
receives the aliased point buffer and returns the traversal chain
together with the final buffer contents. -/
abbrev LatFind : Type := Lat → PointQ → List Entry × PointQ

mutual

/-- The source's `Universe.find` with the numpy point buffer threaded explicitly.
The first component is the returned list, the second the final contents
of the array aliasing the caller's argument (`np.asarray` returns the
argument itself when it is already an ndarray, so the in-place
`p -= cell.translation` and `p[:] = cell.rotation_matrix.dot(p)` are
visible to the caller and to every recursion level). -/
def findStU (lf : LatFind) : Univ → PointQ → List Entry × PointQ
  | .mk uid nm vol cs, p => findStCells lf (.mk uid nm vol cs) cs p
termination_by structural u => u

/-- The `for cell in self._cells.values()` loop of `find`, scanning the
cells in insertion order. -/
def findStCells (lf : LatFind) (u : Univ) : List (Nat × Cell) → PointQ → List Entry × PointQ
  | [], p => ([], p)
  | (_, .mk cid reg tr rot f) :: rest, p =>
    if reg p then
      match f with
      | .material m => ([.univE u, .cellE (.mk cid reg tr rot (.material m))], p)
      | .distribmat ms => ([.univE u, .cellE (.mk cid reg tr rot (.distribmat ms))], p)
      | .void => ([.univE u, .cellE (.mk cid reg tr rot .void)], p)
      | .funiv v =>
        let p1 := match tr with
          | some t => psub p t
          | none => p
        let p2 := match rot with
          | some m => mulVec m p1
          | none => p1
        let res := findStU lf v p2
        (.univE u :: .cellE (.mk cid reg tr rot (.funiv v)) :: res.1, res.2)
      | .flat l =>
        let res := lf l p
        (.univE u :: .cellE (.mk cid reg tr rot (.flat l)) :: res.1, res.2)
    else
      findStCells lf u rest p
termination_by structural cs => cs

end

/-- The source's `Universe.find` as observed by a caller passing an immutable tuple:
just the returned traversal chain. -/
def find (lf : LatFind) (u : Univ) (p : PointQ) : List Entry :=
  (findStU lf u p).1

/-- The source's `Universe.add_cell`: `if cell_id not in self._cells:
self._cells[cell_id] = cell` (an `OrderedDict` assignment of a fresh key
appends in insertion order; re-adding an existing id does nothing). -/
def addCell (u : Univ) (c : Cell) : Univ :=
  match u with
  | .mk uid nm vol cs =>
    if cs.any (fun pr => pr.1 == c.id) then .mk uid nm vol cs
    else .mk uid nm vol (cs ++ [(c.id, c)])

theorem findStU_mk (lf : LatFind) (uid : Nat) (nm : String) (vol : Option ℚ)
    (cs : List (Nat × Cell)) (p : PointQ) :
    findStU lf (.mk uid nm vol cs) p = findStCells lf (.mk uid nm vol cs) cs p := by
  rw [findStU.eq_def]

theorem findStCells_skip (lf : LatFind) (u : Univ) (k : Nat) (cid : Nat)
    (reg : PointQ → Bool) (tr : Option Vec3) (rot : Option Mat3) (f : Fill)
    (rest : List (Nat × Cell)) (p : PointQ) (h : reg p = false) :
    findStCells lf u ((k, .mk cid reg tr rot f) :: rest) p = findStCells lf u rest p := by
  rw [findStCells.eq_def]
  simp [h]

theorem findStCells_skip' (lf : LatFind) (u : Univ) (k : Nat) (c : Cell)
    (rest : List (Nat × Cell)) (p : PointQ) (h : c.region p = false) :
    findStCells lf u ((k, c) :: rest) p = findStCells lf u rest p := by
  cases c with
  | mk cid reg tr rot f =>
    simp only [Cell.region] at h
    exact findStCells_skip lf u k cid reg tr rot f rest p h

theorem findStCells_skip_all (lf : LatFind) (u : Univ) (cs : List (Nat × Cell)) (p : PointQ)
    (h : ∀ pr ∈ cs, pr.2.region p = false) :
    findStCells lf u cs p = ([], p) := by
  induction cs with
  | nil => rw [findStCells.eq_def]
  | cons hd tl ih =>
    obtain ⟨k, c⟩ := hd
    rw [findStCells_skip' lf u k c tl p (h (k, c) (by simp))]
    exact ih fun pr hm => h pr (by simp [hm])

theorem findStCells_first_leaf (lf : LatFind) (u : Univ) (cs1 cs2 : List (Nat × Cell))
    (k : Nat) (c : Cell) (p : PointQ)
    (hbefore : ∀ pr ∈ cs1, pr.2.region p = false)
    (hc : c.region p = true) (hleaf : c.fill.isLeaf = true) :
    findStCells lf u (cs1 ++ (k, c) :: cs2) p = ([.univE u, .cellE c], p) := by
  induction cs1 with
  | nil =>
    cases c with
    | mk cid reg tr rot f =>
      simp only [Cell.region] at hc
      cases f with
      | material m => rw [findStCells.eq_def]; simp [hc]
      | distribmat ms => rw [findStCells.eq_def]; simp [hc]
      | void => rw [findStCells.eq_def]; simp [hc]
      | funiv v => simp [Cell.fill, Fill.isLeaf] at hleaf
      | flat l => simp [Cell.fill, Fill.isLeaf] at hleaf
  | cons hd tl ih =>
    obtain ⟨k1, c1⟩ := hd
    rw [List.cons_append,
      findStCells_skip' lf u k1 c1 (tl ++ (k, c) :: cs2) p (hbefore (k1, c1) (by simp))]
    exact ih fun pr hm => hbefore pr (by simp [hm])

theorem findStCells_first_funiv (lf : LatFind) (u : Univ) (cs1 cs2 : List (Nat × Cell))
    (k : Nat) (c : Cell) (v : Univ) (p : PointQ)
    (hbefore : ∀ pr ∈ cs1, pr.2.region p = false)
    (hc : c.region p = true) (hfill : c.fill = .funiv v) :
    findStCells lf u (cs1 ++ (k, c) :: cs2) p =
      (.univE u :: .cellE c ::
        (findStU lf v
          (match c.rotation with
           | some m => mulVec m (match c.translation with
             | some t => psub p t
             | none => p)
           | none => match c.translation with
             | some t => psub p t
             | none => p)).1,
       (findStU lf v
          (match c.rotation with
           | some m => mulVec m (match c.translation with
             | some t => psub p t
             | none => p)
           | none => match c.translation with
             | some t => psub p t
             | none => p)).2) := by
  induction cs1 with
  | nil =>
    cases c with
    | mk cid reg tr rot f =>
      simp only [Cell.region] at hc
      simp only [Cell.fill] at hfill
      subst hfill
      simp only [Cell.translation, Cell.rotation]
      cases tr <;> cases rot <;> (rw [findStCells.eq_def]; simp [hc])
  | cons hd tl ih =>
    obtain ⟨k1, c1⟩ := hd
    rw [List.cons_append,
      findStCells_skip' lf u k1 c1 (tl ++ (k, c) :: cs2) p (hbefore (k1, c1) (by simp))]
    exact ih fun pr hm => hbefore pr (by simp [hm])

/-- C1.  For every universe and 3D point, `find` scans the universe's
cells in insertion order and acts on the first cell whose region contains
the point; if that cell's fill is a material, distributed material, or
void, `find` returns the two-element sequence `[universe, cell]`, and a
later-added cell that also contains the point is never consulted (the
suffix `cs2` is arbitrary and absent from the conclusion). -/
theorem claim_C1 (lf : LatFind) (uid : Nat) (nm : String) (vol : Option ℚ)
    (cs1 cs2 : List (Nat × Cell)) (k : Nat) (c : Cell) (p : PointQ)
    (hbefore : ∀ pr ∈ cs1, pr.2.region p = false)
    (hc : c.region p = true) (hleaf : c.fill.isLeaf = true) :
    find lf (.mk uid nm vol (cs1 ++ (k, c) :: cs2)) p =
      [.univE (.mk uid nm vol (cs1 ++ (k, c) :: cs2)), .cellE c] := by
  unfold find
  rw [findStU_mk, findStCells_first_leaf lf _ cs1 cs2 k c p hbefore hc hleaf]

/-- Closed witness for C1: two overlapping cells, the first one (a
material-filled box) wins and the later-added one is not consulted. -/
theorem claim_C1_witness :
    (∀ pr ∈ ([] : List (Nat × Cell)), pr.2.region ((0 : ℚ), (0 : ℚ), (0 : ℚ)) = false) ∧
    find (fun _ p => ([], p))
      (.mk 1 "" none ([] ++ (10, Cell.mk 10 (fun _ => true) none none (.material 3)) ::
        [(11, Cell.mk 11 (fun _ => true) none none (.material 4))]))
      ((0 : ℚ), (0 : ℚ), (0 : ℚ)) =
      [.univE (.mk 1 "" none ([] ++ (10, Cell.mk 10 (fun _ => true) none none (.material 3)) ::
        [(11, Cell.mk 11 (fun _ => true) none none (.material 4))])),
       .cellE (Cell.mk 10 (fun _ => true) none none (.material 3))] :=
  ⟨fun _ h => absurd h (List.not_mem_nil _),
    claim_C1 (fun _ p => ([], p)) 1 "" none []
      [(11, Cell.mk 11 (fun _ => true) none none (.material 4))]
      10 (Cell.mk 10 (fun _ => true) none none (.material 3))
      ((0 : ℚ), (0 : ℚ), (0 : ℚ)) (fun _ h => absurd h (List.not_mem_nil _)) rfl rfl⟩

/-- C3.  For every universe and every point contained in none of the
universe's cells, `find` returns an empty sequence; the embedding is a
total function, so "not found" is an ordinary return value and no
exception is raised. -/
theorem claim_C3 (lf : LatFind) (uid : Nat) (nm : String) (vol : Option ℚ)
    (cs : List (Nat × Cell)) (p : PointQ)
    (h : ∀ pr ∈ cs, pr.2.region p = false) :
    find lf (.mk uid nm vol cs) p = [] := by
  unfold find
  rw [findStU_mk, findStCells_skip_all lf _ cs p h]

/-- Closed witness for C3: a point outside the only cell of a universe. -/
theorem claim_C3_witness :
    (∀ pr ∈ [(7, Cell.mk 7 (fun q => decide (q.1 < 1)) none none (.material 3))],
      pr.2.region ((5 : ℚ), (5 : ℚ), (5 : ℚ)) = false) ∧
    find (fun _ p => ([], p))
      (.mk 1 "" none [(7, Cell.mk 7 (fun q => decide (q.1 < 1)) none none (.material 3))])
      ((5 : ℚ), (5 : ℚ), (5 : ℚ)) = [] :=
  ⟨fun pr h => by
      rw [List.mem_singleton] at h
      subst h
      simp [Cell.region],
    claim_C3 (fun _ p => ([], p)) 1 "" none _ _ (fun pr h => by
      rw [List.mem_singleton] at h
      subst h
      simp [Cell.region])⟩

/-- C2.  When the first containing cell is universe-filled, `find`
first subtracts the cell's translation (when present), then multiplies
the point by the cell's rotation matrix (when present) — in that order —
and returns `[universe, cell]` prepended to the recursive result on the
transformed point.  The witness exercises the particular case of
translation `(1,0,0)`, no rotation: locating `(1,0,0)` in the parent
locates `(0,0,0)` in the child. -/
theorem claim_C2 (lf : LatFind) (uid : Nat) (nm : String) (vol : Option ℚ)
    (cs1 cs2 : List (Nat × Cell)) (k : Nat) (c : Cell) (v : Univ) (p : PointQ)
    (hbefore : ∀ pr ∈ cs1, pr.2.region p = false)
    (hc : c.region p = true) (hfill : c.fill = .funiv v) :
    find lf (.mk uid nm vol (cs1 ++ (k, c) :: cs2)) p =
      .univE (.mk uid nm vol (cs1 ++ (k, c) :: cs2)) :: .cellE c ::
        find lf v
          (match c.rotation with
           | some m => mulVec m (match c.translation with
             | some t => psub p t
             | none => p)
           | none => match c.translation with
             | some t => psub p t
             | none => p) := by
  unfold find
  rw [findStU_mk, findStCells_first_funiv lf _ cs1 cs2 k c v p hbefore hc hfill]

/-- Closed witness for C2: a cell with translation `(1,0,0)` and no
rotation, filled with a child universe `V` whose single cell is a
material box around the origin; locating `(1,0,0)` in the parent
descends into `V` at `(0,0,0)` and finds that cell. -/
theorem claim_C2_witness :
    (Cell.mk 10 (fun _ => true) (some ((1 : ℚ), (0 : ℚ), (0 : ℚ))) none
        (.funiv (.mk 2 "" none [(20, Cell.mk 20 (fun q => decide (q.1 = 0)) none none (.material 3))]))).fill =
      .funiv (.mk 2 "" none [(20, Cell.mk 20 (fun q => decide (q.1 = 0)) none none (.material 3))]) ∧
    find (fun _ p => ([], p))
      (.mk 1 "" none ([] ++ (10, Cell.mk 10 (fun _ => true) (some ((1 : ℚ), (0 : ℚ), (0 : ℚ))) none
        (.funiv (.mk 2 "" none [(20, Cell.mk 20 (fun q => decide (q.1 = 0)) none none (.material 3))]))) :: []))
      ((1 : ℚ), (0 : ℚ), (0 : ℚ)) =
      .univE (.mk 1 "" none ([] ++ (10, Cell.mk 10 (fun _ => true) (some ((1 : ℚ), (0 : ℚ), (0 : ℚ))) none
        (.funiv (.mk 2 "" none [(20, Cell.mk 20 (fun q => decide (q.1 = 0)) none none (.material 3))]))) :: [])) ::
      .cellE (Cell.mk 10 (fun _ => true) (some ((1 : ℚ), (0 : ℚ), (0 : ℚ))) none
        (.funiv (.mk 2 "" none [(20, Cell.mk 20 (fun q => decide (q.1 = 0)) none none (.material 3))]))) ::
      find (fun _ p => ([], p))
        (.mk 2 "" none [(20, Cell.mk 20 (fun q => decide (q.1 = 0)) none none (.material 3))])
        (psub ((1 : ℚ), (0 : ℚ), (0 : ℚ)) ((1 : ℚ), (0 : ℚ), (0 : ℚ))) ∧
    psub ((1 : ℚ), (0 : ℚ), (0 : ℚ)) ((1 : ℚ), (0 : ℚ), (0 : ℚ)) = ((0 : ℚ), (0 : ℚ), (0 : ℚ)) :=
  ⟨rfl,
    claim_C2 (fun _ p => ([], p)) 1 "" none [] [] 10 _ _ ((1 : ℚ), (0 : ℚ), (0 : ℚ))
      (fun _ h => absurd h (List.not_mem_nil _)) rfl rfl,
    by norm_num [psub]⟩

/-- C4.  `add_cell` is idempotent: adding the same cell twice leaves the
cells mapping identical to a single add, because re-adding an existing id
is a silent no-op that leaves the original entry in place; consequently
the keys of the cells mapping stay duplicate-free. -/
theorem claim_C4 (u : Univ) (c : Cell) :
    addCell (addCell u c) c = addCell u c ∧
    (((u.cells.map Prod.fst).Nodup) → (((addCell u c).cells.map Prod.fst).Nodup)) := by
  obtain ⟨uid, nm, vol, cs⟩ := u
  constructor
  · by_cases h : cs.any (fun pr => pr.1 == c.id) = true
    · simp [addCell, h]
    · have h2 : ((cs ++ [(c.id, c)]).any (fun pr => pr.1 == c.id)) = true := by simp
      simp [addCell, h, h2]
  · intro hnd
    by_cases h : cs.any (fun pr => pr.1 == c.id) = true
    · simpa [addCell, h, Univ.cells] using hnd
    · simp only [addCell, h, Bool.false_eq_true, if_false, Univ.cells]
      simp only [List.any_eq_true, beq_iff_eq, not_exists, not_and] at h
      simp only [Univ.cells] at hnd
      rw [List.map_append, List.nodup_append]
      refine ⟨hnd, by simp, ?_⟩
      intro a ha
      simp only [List.map_cons, List.map_nil, List.mem_singleton]
      rintro rfl
      obtain ⟨pr, hpr, hfst⟩ := List.mem_map.mp ha
      exact h pr hpr (by simpa using hfst)

/-- Closed witness for C4 at a concrete universe and cell. -/
theorem claim_C4_witness :
    (((Univ.mk 1 "" none [(5, Cell.mk 5 (fun _ => true) none none .void)]).cells.map Prod.fst).Nodup) ∧
    addCell (addCell (Univ.mk 1 "" none [(5, Cell.mk 5 (fun _ => true) none none .void)])
        (Cell.mk 6 (fun _ => true) none none .void)) (Cell.mk 6 (fun _ => true) none none .void) =
      addCell (Univ.mk 1 "" none [(5, Cell.mk 5 (fun _ => true) none none .void)])
        (Cell.mk 6 (fun _ => true) none none .void) ∧
    ((((addCell (Univ.mk 1 "" none [(5, Cell.mk 5 (fun _ => true) none none .void)])
        (Cell.mk 6 (fun _ => true) none none .void)).cells.map Prod.fst).Nodup)) :=
  ⟨by simp [Univ.cells],
    (claim_C4 _ _).1,
    (claim_C4 (Univ.mk 1 "" none [(5, Cell.mk 5 (fun _ => true) none none .void)])
      (Cell.mk 6 (fun _ => true) none none .void)).2 (by simp [Univ.cells])⟩

/-- C10.  When `find` is entered with a mutable numpy array, `p =
np.asarray(point)` aliases the caller's array, so the in-place updates
`p -= cell.translation` and `p[:] = cell.rotation_matrix.dot(p)` are
visible to the caller; the embedding threads the buffer contents as the
second component of `findStU`.  When the first containing cell is
universe-filled, the caller's buffer after the call holds the result of
subtracting the translation and applying the rotation (and whatever the
deeper recursion, which aliases the same buffer, wrote afterwards).
Callers passing a tuple observe only `find`, the first component: tuples
are immutable values in the embedding, as `np.asarray` copies them into a
fresh array. -/
theorem claim_C10 (lf : LatFind) (uid : Nat) (nm : String) (vol : Option ℚ)
    (cs1 cs2 : List (Nat × Cell)) (k : Nat) (c : Cell) (v : Univ) (p : PointQ)
    (hbefore : ∀ pr ∈ cs1, pr.2.region p = false)
    (hc : c.region p = true) (hfill : c.fill = .funiv v) :
    (findStU lf (.mk uid nm vol (cs1 ++ (k, c) :: cs2)) p).2 =
      (findStU lf v
        (match c.rotation with
         | some m => mulVec m (match c.translation with
           | some t => psub p t
           | none => p)
         | none => match c.translation with
           | some t => psub p t
           | none => p)).2 := by
  rw [findStU_mk, findStCells_first_funiv lf _ cs1 cs2 k c v p hbefore hc hfill]

/-- Closed witness for C10: entering with the array `(1,0,0)` and a
first cell carrying translation `(1,0,0)`, no rotation, filled with an
empty child universe, the caller's array holds `(0,0,0)` after the call —
the subtraction was written into the aliased buffer. -/
theorem claim_C10_witness :
    (findStU (fun _ p => ([], p))
      (.mk 1 "" none ([] ++ (10, Cell.mk 10 (fun _ => true) (some ((1 : ℚ), (0 : ℚ), (0 : ℚ))) none
        (.funiv (.mk 2 "" none []))) :: []))
      ((1 : ℚ), (0 : ℚ), (0 : ℚ))).2 =
      (findStU (fun _ p => ([], p)) (.mk 2 "" none [])
        (psub ((1 : ℚ), (0 : ℚ), (0 : ℚ)) ((1 : ℚ), (0 : ℚ), (0 : ℚ)))).2 ∧
    (findStU (fun _ p => ([], p))
      (.mk 1 "" none ([] ++ (10, Cell.mk 10 (fun _ => true) (some ((1 : ℚ), (0 : ℚ), (0 : ℚ))) none
        (.funiv (.mk 2 "" none []))) :: []))
      ((1 : ℚ), (0 : ℚ), (0 : ℚ))).2 ≠ ((1 : ℚ), (0 : ℚ), (0 : ℚ)) := by
  have hA := claim_C10 (fun _ p => ([], p)) 1 "" none [] []
    10 (Cell.mk 10 (fun _ => true) (some ((1 : ℚ), (0 : ℚ), (0 : ℚ))) none
      (.funiv (.mk 2 "" none []))) (.mk 2 "" none []) ((1 : ℚ), (0 : ℚ), (0 : ℚ))
    (fun _ h => absurd h (List.not_mem_nil _)) rfl rfl
  refine ⟨hA, ?_⟩
  rw [hA]
  simp only [Cell.rotation, Cell.translation]
  rw [findStU_mk, findStCells.eq_def]
  simp [psub, Prod.ext_iff]

/-!
Mesh-backed (DAGMC) universes.  `DAGMCUniverse` carries the scalar
attributes of the source class; its `_cells` container is irrelevant to
the claims below (the class exposes no cells).
-/

/-- The scalar state of a `DAGMCUniverse`: id, name, DAGMC file path and
the two ID-renumbering flags. -/
structure DAGMCUniverse : Type where
  uid : Nat
  uname : String
  filename : String
  auto_geom_ids : Bool
  auto_mat_ids : Bool
deriving DecidableEq

/-- The memo argument threaded through the aggregation traversals (a set
of already-visited objects, by id). -/
abbrev Memo : Type := List Nat

/-- The source's `DAGMCUniverse.get_all_cells`: `return OrderedDict()` for every memo. -/
def DAGMCUniverse.get_all_cells (_d : DAGMCUniverse) (_memo : Memo) : List (Nat × Cell) := []

/-- The source's `DAGMCUniverse.get_all_materials`: `return OrderedDict()` for every memo. -/
def DAGMCUniverse.get_all_materials (_d : DAGMCUniverse) (_memo : Memo) : List Nat := []

/-- C9.  For every mesh-backed (DAGMC) universe and every memo argument,
`get_all_cells` and `get_all_materials` return an empty mapping: the
mesh-backed universe exposes zero cells and zero materials to the generic
graph traversal. -/
theorem claim_C9 (d : DAGMCUniverse) (memo : Memo) :
    d.get_all_cells memo = [] ∧ d.get_all_materials memo = [] :=
  ⟨rfl, rfl⟩

/-!
Persisted element form.  An XML element is its tag and attribute list;
`create_xml_subelement` (DAGMC variant) writes attributes only.
-/

/-- An XML element reduced to what the DAGMC serializer produces: a tag
and an attribute mapping. -/
structure XmlEl : Type where
  tag : String
  attrs : List (String × String)
deriving DecidableEq

/-- Modelled from the spec: the `get_text` helper of `openmc._xml` (the
module is not part of the excerpt), which reads the value of a named
attribute of a persisted element and yields `None` when the attribute is
absent.  The elements produced by the DAGMC serializer carry all state in
attributes. -/
def get_text (e : XmlEl) (k : String) : Option String :=
  (e.attrs.find? (fun pr => pr.1 == k)).map Prod.snd

/-- Python `str` of a nonnegative integer (`str(self.id)`): the decimal
digit string, which is exactly `Nat.repr`. -/
def pyStr (n : Nat) : String := Nat.repr n

/-- Decimal value of one character, `None` when it is not a digit. -/
def pyDigitVal (c : Char) : Option Nat :=
  if 48 ≤ c.toNat ∧ c.toNat ≤ 57 then some (c.toNat - 48) else none

/-- Accumulating decimal parse of a character list; any non-digit makes
the whole parse fail. -/
def pyIntChars : List Char → Nat → Option Nat
  | [], acc => some acc
  | c :: cs, acc =>
    match pyDigitVal c with
    | some d => pyIntChars cs (acc * 10 + d)
    | none => none

/-- Python `int()` on the strings appearing here (nonnegative decimal
literals); `none` models the `ValueError` on anything else, including the
empty string. -/
def pyInt (s : String) : Option Nat :=
  match s.data with
  | [] => none
  | c :: cs => pyIntChars (c :: cs) 0

/-- Python truthiness of an optional attribute value,
`bool(elem.get(name))`: `None` and the empty string are falsy, every
other string is truthy. -/
def pyBool : Option String → Bool
  | none => false
  | some s => !s.isEmpty

/-- The source's `DAGMCUniverse.create_xml_subelement`: the `<dagmc_universe>` element
appended to the geometry element, with `id` always, each boolean flag
written as `'true'` only when set, and `filename` always.  The name is
not written. -/
def DAGMCUniverse.create_xml_subelement (d : DAGMCUniverse) : XmlEl :=
  { tag := "dagmc_universe",
    attrs := [("id", pyStr d.uid)]
      ++ (if d.auto_geom_ids then [("auto_geom_ids", "true")] else [])
      ++ (if d.auto_mat_ids then [("auto_mat_ids", "true")] else [])
      ++ [("filename", d.filename)] }

/-- The source's `DAGMCUniverse.from_xml_element`: `id = int(get_text(elem, 'id'))`
(a missing or malformed attribute raises, modelled as `none`), the
filename is required by the constructor's type check, the name is set
only when present, and each flag is the truthiness of its attribute. -/
def DAGMCUniverse.from_xml_element (e : XmlEl) : Option DAGMCUniverse :=
  match get_text e "id" with
  | none => none
  | some idStr =>
    match pyInt idStr with
    | none => none
    | some i =>
      match get_text e "filename" with
      | none => none
      | some fn =>
        let base : DAGMCUniverse :=
          { uid := i, uname := "", filename := fn,
            auto_geom_ids := false, auto_mat_ids := false }
        let withName : DAGMCUniverse :=
          match get_text e "name" with
          | some nm => { base with uname := nm }
          | none => base
        some { withName with
               auto_geom_ids := pyBool (get_text e "auto_geom_ids"),
               auto_mat_ids := pyBool (get_text e "auto_mat_ids") }

theorem pyDigitVal_digitChar (d : Nat) (h : d < 10) :
    pyDigitVal (Nat.digitChar d) = some d := by
  interval_cases d <;> decide

theorem pyIntChars_cons_digit (c : Char) (cs : List Char) (a d : Nat)
    (h : pyDigitVal c = some d) :
    pyIntChars (c :: cs) a = pyIntChars cs (a * 10 + d) := by
  simp [pyIntChars, h]

/-- Value denoted by an accumulator `a` followed by the decimal digits of
`n`. -/
def combDec (a n : Nat) : Nat :=
  if n < 10 then a * 10 + n else combDec a (n / 10) * 10 + n % 10
termination_by n
decreasing_by exact Nat.div_lt_self (by omega) (by omega)

theorem combDec_zero (n : Nat) : combDec 0 n = n := by
  induction n using Nat.strong_induction_on with
  | _ n ih =>
    rw [combDec]
    by_cases h : n < 10
    · simp [h]
    · rw [if_neg h, ih (n / 10) (Nat.div_lt_self (by omega) (by omega))]
      omega

theorem pyIntChars_toDigitsCore (f : Nat) :
    ∀ (n : Nat) (acc : List Char) (a : Nat), n < 10 ^ (f + 1) →
      pyIntChars (Nat.toDigitsCore 10 (f + 1) n acc) a = pyIntChars acc (combDec a n) := by
  induction f with
  | zero =>
    intro n acc a h
    have hn : n < 10 := by simpa using h
    have h10 : n / 10 = 0 := Nat.div_eq_of_lt hn
    simp only [Nat.toDigitsCore, h10, if_pos]
    rw [pyIntChars_cons_digit _ _ _ (n % 10) (pyDigitVal_digitChar _ (Nat.mod_lt n (by omega)))]
    rw [combDec, if_pos hn, Nat.mod_eq_of_lt hn]
  | succ f ih =>
    intro n acc a h
    by_cases h10 : n / 10 = 0
    · have hn : n < 10 := by omega
      simp only [Nat.toDigitsCore, h10, if_pos]
      rw [pyIntChars_cons_digit _ _ _ (n % 10) (pyDigitVal_digitChar _ (Nat.mod_lt n (by omega)))]
      rw [combDec, if_pos hn, Nat.mod_eq_of_lt hn]
    · have hdiv : n / 10 < 10 ^ (f + 1) := by
        rw [Nat.div_lt_iff_lt_mul (by omega)]
        calc n < 10 ^ (f + 2) := h
        _ = 10 ^ (f + 1) * 10 := by ring
      have hstep : Nat.toDigitsCore 10 (f + 1 + 1) n acc =
          Nat.toDigitsCore 10 (f + 1) (n / 10) (Nat.digitChar (n % 10) :: acc) := by
        rw [Nat.toDigitsCore]
        simp [h10]
      rw [hstep, ih (n / 10) (Nat.digitChar (n % 10) :: acc) a hdiv]
      rw [pyIntChars_cons_digit _ _ _ (n % 10) (pyDigitVal_digitChar _ (Nat.mod_lt n (by omega)))]
      conv_rhs => rw [combDec]
      rw [if_neg (show ¬ n < 10 by omega)]

theorem toDigitsCore_ne_nil (f : Nat) :
    ∀ (n : Nat) (acc : List Char), 0 < f → Nat.toDigitsCore 10 f n acc ≠ [] := by
  induction f with
  | zero => intro n acc h; omega
  | succ f ih =>
    intro n acc _
    by_cases h10 : n / 10 = 0
    · simp [Nat.toDigitsCore, h10]
    · simp only [Nat.toDigitsCore, h10, ite_false]
      rcases Nat.eq_zero_or_pos f with hf | hf
      · subst hf
        simp [Nat.toDigitsCore]
      · exact ih (n / 10) (Nat.digitChar (n % 10) :: acc) hf

/-- Round trip of the decimal conversions: parsing the string written for
a nonnegative integer recovers the integer. -/
theorem pyInt_pyStr (n : Nat) : pyInt (pyStr n) = some n := by
  have hdata : (pyStr n).data = Nat.toDigitsCore 10 (n + 1) n [] := rfl
  have hne := toDigitsCore_ne_nil (n + 1) n [] (Nat.succ_pos n)
  have hlt : n < 10 ^ (n + 1) := by
    calc n < 10 ^ n := Nat.lt_pow_self (by norm_num) n
    _ ≤ 10 ^ (n + 1) := Nat.pow_le_pow_right (by norm_num) (by omega)
  have hmain := pyIntChars_toDigitsCore n n [] 0 hlt
  unfold pyInt
  rw [hdata]
  cases hL : Nat.toDigitsCore 10 (n + 1) n [] with
  | nil => exact absurd hL hne
  | cons c cs =>
    show pyIntChars (c :: cs) 0 = some n
    rw [← hL, hmain]
    simp [pyIntChars, combDec_zero]

/-- Claim C8 as frozen is false: `create_xml_subelement` never writes the
universe's name, so a DAGMC universe with the nonempty name `core` does
not round-trip to an identical object — the deserialized name is the
empty default. -/
theorem claim_C8_counterexample :
    DAGMCUniverse.from_xml_element (DAGMCUniverse.create_xml_subelement
      ⟨7, "core", "dagmc.h5m", true, false⟩) ≠
      some ⟨7, "core", "dagmc.h5m", true, false⟩ := by decide

/-- C8 (amended).  Serializing a mesh-backed (DAGMC) universe to its
persisted element form and deserializing it back reproduces identical
`id`, `filename` and both boolean flags; the name is not serialized, so
the deserialized universe carries the empty default name (hence the name
round-trips only when it was already empty). -/
theorem claim_C8 (d : DAGMCUniverse) :
    DAGMCUniverse.from_xml_element (DAGMCUniverse.create_xml_subelement d) =
      some { d with uname := "" } := by
  obtain ⟨i, nm, fn, g, m⟩ := d
  cases g <;> cases m <;>
    simp [DAGMCUniverse.create_xml_subelement, DAGMCUniverse.from_xml_element,
      get_text, pyBool, pyInt_pyStr] <;> rfl

/-!
Graph-identity-preserving clone.  The memo of the source is keyed by
object identity; the model renders identity by the universe id (unique by
model convention).  An event trace records the order of the two
observable operations of `UniverseBase.clone`: each delegated child-cell
clone and the `memo[self] = clone` registration.
-/

/-- Events observed during a clone traversal. -/
inductive CloneEv : Type where
  | cellCloneEv : Nat → CloneEv
  | registerEv : Nat → CloneEv
deriving DecidableEq

/-- State threaded through `clone`: the fresh-id allocator, the shared
memo (original universe id ↦ produced clone) and the event trace. -/
structure CloneSt : Type where
  next : Nat
  memo : List (Nat × Univ)
  trace : List CloneEv

/-- Memo lookup; a later registration of the same key shadows an earlier
one, as assignment to a Python dict key overwrites. -/
def memoFind (k : Nat) (m : List (Nat × Univ)) : Option Univ :=
  m.foldl (fun acc pr => if pr.1 = k then some pr.2 else acc) none

mutual

/-- The source's `UniverseBase.clone`: when the universe has no memo entry, build the
skeleton via `_partial_deepcopy` (fresh id, same name and volume, empty
cell container), clone every child cell with the shared memo and add each
to the skeleton, and only then execute `memo[self] = clone`; finally
return `memo[self]`. -/
def cloneU (cm cr : Bool) : Univ → CloneSt → Univ × CloneSt
  | .mk uid nm vol cs, st =>
    match memoFind uid st.memo with
    | some cl => (cl, st)
    | none =>
      let skelId := st.next
      let st1 : CloneSt := { st with next := st.next + 1 }
      let res := cloneCells cm cr cs st1
      let cl : Univ := .mk skelId nm vol res.1
      (cl, { res.2 with
             memo := res.2.memo ++ [(uid, cl)],
             trace := res.2.trace ++ [.registerEv uid] })
termination_by structural u => u

/-- Modelled from the spec: `Cell.clone` (the `cell.py` module is not
part of the excerpt) is an identity-memoized deep copy receiving
`clone_materials`, `clone_regions` and the shared memo; it assigns the
cloned cell a fresh id and clones a universe or lattice fill through the
same memoized machinery.  Materials and regions are opaque scalars of
this model, so the two flags are threaded without observable effect.
This traversal is the `for cell in self._cells.values():
clone.add_cell(cell.clone(clone_materials, clone_regions, memo))` loop of
the source; `add_cell` on the fresh, pairwise-distinct clone ids appends
in order. -/
def cloneCells (cm cr : Bool) : List (Nat × Cell) → CloneSt → List (Nat × Cell) × CloneSt
  | [], st => ([], st)
  | (_, .mk cid reg tr rot f) :: rest, st =>
    let st0 : CloneSt := { st with trace := st.trace ++ [.cellCloneEv cid] }
    let freshC := st0.next
    let st1 : CloneSt := { st0 with next := st0.next + 1 }
    let resF := cloneFill cm cr f st1
    let resR := cloneCells cm cr rest resF.2
    ((freshC, Cell.mk freshC reg tr rot resF.1) :: resR.1, resR.2)
termination_by structural cs => cs

/-- Modelled from the spec: the fill of a cloned cell — a universe fill
recurses through the memoized clone, a lattice fill clones every slot
universe the same way, material fills and void are opaque scalars. -/
def cloneFill (cm cr : Bool) : Fill → CloneSt → Fill × CloneSt
  | .funiv v, st =>
    let res := cloneU cm cr v st
    (.funiv res.1, res.2)
  | .flat (.mk lid slots), st =>
    let res := cloneSlots cm cr slots st
    (.flat (.mk lid res.1), res.2)
  | .material m, st => (.material m, st)
  | .distribmat ms, st => (.distribmat ms, st)
  | .void, st => (.void, st)
termination_by structural f => f

/-- Modelled from the spec: slot universes of a cloned lattice are cloned
in slot order with the shared memo. -/
def cloneSlots (cm cr : Bool) : List (List Int × Univ) → CloneSt → List (List Int × Univ) × CloneSt
  | [], st => ([], st)
  | (idx, v) :: rest, st =>
    let res := cloneU cm cr v st
    let resR := cloneSlots cm cr rest res.2
    ((idx, res.1) :: resR.1, resR.2)
termination_by structural sl => sl

end

theorem memoFind_append_self (k : Nat) (m : List (Nat × Univ)) (v : Univ) :
    memoFind k (m ++ [(k, v)]) = some v := by
  unfold memoFind
  rw [List.foldl_append]
  simp

theorem cloneU_memoHit (cm cr : Bool) (uid : Nat) (nm : String) (vol : Option ℚ)
    (cs : List (Nat × Cell)) (st : CloneSt) (cl : Univ)
    (h : memoFind uid st.memo = some cl) :
    cloneU cm cr (.mk uid nm vol cs) st = (cl, st) := by
  rw [cloneU.eq_def]
  simp [h]

theorem cloneU_fresh (cm cr : Bool) (uid : Nat) (nm : String) (vol : Option ℚ)
    (cs : List (Nat × Cell)) (st : CloneSt)
    (h : memoFind uid st.memo = none) :
    cloneU cm cr (.mk uid nm vol cs) st =
      (Univ.mk st.next nm vol
        (cloneCells cm cr cs { next := st.next + 1, memo := st.memo, trace := st.trace }).1,
       { next := (cloneCells cm cr cs { next := st.next + 1, memo := st.memo, trace := st.trace }).2.next,
         memo := (cloneCells cm cr cs { next := st.next + 1, memo := st.memo, trace := st.trace }).2.memo ++
           [(uid, Univ.mk st.next nm vol
             (cloneCells cm cr cs { next := st.next + 1, memo := st.memo, trace := st.trace }).1)],
         trace := (cloneCells cm cr cs { next := st.next + 1, memo := st.memo, trace := st.trace }).2.trace ++
           [.registerEv uid] }) := by
  rw [cloneU.eq_def]
  simp [h]

theorem cloneCells_nil (cm cr : Bool) (st : CloneSt) :
    cloneCells cm cr [] st = ([], st) := by
  rw [cloneCells.eq_def]

theorem cloneCells_cons (cm cr : Bool) (k cid : Nat) (reg : PointQ → Bool)
    (tr : Option Vec3) (rot : Option Mat3) (f : Fill)
    (rest : List (Nat × Cell)) (st : CloneSt) :
    cloneCells cm cr ((k, .mk cid reg tr rot f) :: rest) st =
      ((st.next, Cell.mk st.next reg tr rot
          (cloneFill cm cr f
            { next := st.next + 1, memo := st.memo, trace := st.trace ++ [.cellCloneEv cid] }).1) ::
        (cloneCells cm cr rest
          (cloneFill cm cr f
            { next := st.next + 1, memo := st.memo, trace := st.trace ++ [.cellCloneEv cid] }).2).1,
       (cloneCells cm cr rest
          (cloneFill cm cr f
            { next := st.next + 1, memo := st.memo, trace := st.trace ++ [.cellCloneEv cid] }).2).2) := by
  rw [cloneCells.eq_def]

theorem cloneSlots_nil (cm cr : Bool) (st : CloneSt) :
    cloneSlots cm cr [] st = ([], st) := by
  rw [cloneSlots.eq_def]

theorem cloneSlots_cons (cm cr : Bool) (idx : List Int) (v : Univ)
    (rest : List (List Int × Univ)) (st : CloneSt) :
    cloneSlots cm cr ((idx, v) :: rest) st =
      ((idx, (cloneU cm cr v st).1) :: (cloneSlots cm cr rest (cloneU cm cr v st).2).1,
       (cloneSlots cm cr rest (cloneU cm cr v st).2).2) := by
  rw [cloneSlots.eq_def]

theorem cloneFill_funiv (cm cr : Bool) (v : Univ) (st : CloneSt) :
    cloneFill cm cr (.funiv v) st = (.funiv (cloneU cm cr v st).1, (cloneU cm cr v st).2) := by
  rw [cloneFill.eq_def]

theorem cloneFill_flat (cm cr : Bool) (lid : Nat) (slots : List (List Int × Univ)) (st : CloneSt) :
    cloneFill cm cr (.flat (.mk lid slots)) st =
      (.flat (.mk lid (cloneSlots cm cr slots st).1), (cloneSlots cm cr slots st).2) := by
  rw [cloneFill.eq_def]

theorem cloneFill_material (cm cr : Bool) (m : Nat) (st : CloneSt) :
    cloneFill cm cr (.material m) st = (.material m, st) := by
  rw [cloneFill.eq_def]

theorem cloneFill_distribmat (cm cr : Bool) (ms : List Nat) (st : CloneSt) :
    cloneFill cm cr (.distribmat ms) st = (.distribmat ms, st) := by
  rw [cloneFill.eq_def]

theorem cloneFill_void (cm cr : Bool) (st : CloneSt) :
    cloneFill cm cr .void st = (.void, st) := by
  rw [cloneFill.eq_def]

/-- Every clone traversal only appends to the event trace. -/
theorem clone_trace_ext (cm cr : Bool) (n : Nat) :
    (∀ u : Univ, sizeOf u < n → ∀ st : CloneSt,
      ∃ tl, ((cloneU cm cr u st).2).trace = st.trace ++ tl) ∧
    (∀ cs : List (Nat × Cell), sizeOf cs < n → ∀ st : CloneSt,
      ∃ tl, ((cloneCells cm cr cs st).2).trace = st.trace ++ tl) ∧
    (∀ f : Fill, sizeOf f < n → ∀ st : CloneSt,
      ∃ tl, ((cloneFill cm cr f st).2).trace = st.trace ++ tl) ∧
    (∀ sl : List (List Int × Univ), sizeOf sl < n → ∀ st : CloneSt,
      ∃ tl, ((cloneSlots cm cr sl st).2).trace = st.trace ++ tl) := by
  induction n using Nat.strong_induction_on with
  | _ n ih =>
    refine ⟨?_, ?_, ?_, ?_⟩
    · intro u hu st
      obtain ⟨uid, nm, vol, cs⟩ := u
      cases hm : memoFind uid st.memo with
      | some cl => exact ⟨[], by rw [cloneU_memoHit cm cr uid nm vol cs st cl hm]; simp⟩
      | none =>
        have hcs : sizeOf cs < sizeOf (Univ.mk uid nm vol cs) := by
          simp [Univ.mk.sizeOf_spec]
        obtain ⟨tl1, htl1⟩ := (ih (sizeOf (Univ.mk uid nm vol cs)) hu).2.1 cs hcs
          { next := st.next + 1, memo := st.memo, trace := st.trace }
        refine ⟨tl1 ++ [.registerEv uid], ?_⟩
        rw [cloneU_fresh cm cr uid nm vol cs st hm]
        simp only at htl1 ⊢
        rw [htl1]
        simp
    · intro cs hcs st
      cases cs with
      | nil => exact ⟨[], by rw [cloneCells_nil]; simp⟩
      | cons hd rest =>
        obtain ⟨k, c⟩ := hd
        obtain ⟨cid, reg, tr, rot, f⟩ := c
        have hf : sizeOf f < sizeOf ((k, Cell.mk cid reg tr rot f) :: rest) := by
          simp
          omega
        have hrest : sizeOf rest < sizeOf ((k, Cell.mk cid reg tr rot f) :: rest) := by
          simp
        obtain ⟨tl1, htl1⟩ := (ih _ hcs).2.2.1 f hf
          { next := st.next + 1, memo := st.memo, trace := st.trace ++ [.cellCloneEv cid] }
        obtain ⟨tl2, htl2⟩ := (ih _ hcs).2.1 rest hrest
          (cloneFill cm cr f
            { next := st.next + 1, memo := st.memo, trace := st.trace ++ [.cellCloneEv cid] }).2
        refine ⟨[.cellCloneEv cid] ++ tl1 ++ tl2, ?_⟩
        rw [cloneCells_cons]
        simp only at htl1 htl2 ⊢
        rw [htl2, htl1]
        simp
    · intro f hf st
      cases f with
      | funiv v =>
        have hv : sizeOf v < sizeOf (Fill.funiv v) := by
          simp
        obtain ⟨tl1, htl1⟩ := (ih _ hf).1 v hv st
        exact ⟨tl1, by rw [cloneFill_funiv]; simpa using htl1⟩
      | flat l =>
        obtain ⟨lid, slots⟩ := l
        have hsl : sizeOf slots < sizeOf (Fill.flat (Lat.mk lid slots)) := by
          simp
          omega
        obtain ⟨tl1, htl1⟩ := (ih _ hf).2.2.2 slots hsl st
        exact ⟨tl1, by rw [cloneFill_flat]; simpa using htl1⟩
      | material m => exact ⟨[], by rw [cloneFill_material]; simp⟩
      | distribmat ms => exact ⟨[], by rw [cloneFill_distribmat]; simp⟩
      | void => exact ⟨[], by rw [cloneFill_void]; simp⟩
    · intro sl hsl st
      cases sl with
      | nil => exact ⟨[], by rw [cloneSlots_nil]; simp⟩
      | cons hd rest =>
        obtain ⟨idx, v⟩ := hd
        have hv : sizeOf v < sizeOf ((idx, v) :: rest) := by
          simp
          omega
        have hrest : sizeOf rest < sizeOf ((idx, v) :: rest) := by
          simp
        obtain ⟨tl1, htl1⟩ := (ih _ hsl).1 v hv st
        obtain ⟨tl2, htl2⟩ := (ih _ hsl).2.2.2 rest hrest (cloneU cm cr v st).2
        refine ⟨tl1 ++ tl2, ?_⟩
        rw [cloneSlots_cons]
        simp only at htl1 htl2 ⊢
        rw [htl2, htl1]
        simp

/-- Scan of an event trace: `true` when the registration of `uid` is met
before any delegated child-cell clone event. -/
def regBeforeCells (uid : Nat) : List CloneEv → Bool
  | [] => false
  | .registerEv w :: tl => if w = uid then true else regBeforeCells uid tl
  | .cellCloneEv _ :: _ => false

/-- Claim C7 as frozen is false on the code: `memo[self] = clone` is
executed only after the `for cell in self._cells.values()` loop, so on a
fresh one-cell universe the delegated cell clone is traced first and the
registration afterwards — the skeleton is not registered before the
recursion into child cells. -/
theorem claim_C7_counterexample :
    (cloneU false false (.mk 1 "" none [(5, Cell.mk 5 (fun _ => true) none none (.material 9))])
        ⟨100, [], []⟩).2.trace = [.cellCloneEv 5, .registerEv 1] ∧
    regBeforeCells 1 ((cloneU false false
        (.mk 1 "" none [(5, Cell.mk 5 (fun _ => true) none none (.material 9))])
        ⟨100, [], []⟩).2.trace) = false :=
  ⟨rfl, rfl⟩

/-- C7 (amended).  For every universe not yet present in the memo,
`clone` constructs the skeleton clone, recurses into and clones the
universe's child cells first, and registers the result in the memo
mapping only afterwards, as the final operation of the call — so a
re-encounter of the same universe after the call (e.g. from a sibling
cell of a shared parent) finds the entry, while a re-encounter during the
child-cloning recursion itself would not find it yet (cycles are not
broken; the model is normally a DAG). -/
theorem claim_C7 (cm cr : Bool) (uid : Nat) (nm : String) (vol : Option ℚ)
    (cs : List (Nat × Cell)) (st : CloneSt)
    (h : memoFind uid st.memo = none) :
    ∃ tl, ((cloneU cm cr (.mk uid nm vol cs) st).2).trace =
        st.trace ++ tl ++ [.registerEv uid] ∧
      memoFind uid ((cloneU cm cr (.mk uid nm vol cs) st).2).memo =
        some (cloneU cm cr (.mk uid nm vol cs) st).1 := by
  obtain ⟨tl1, htl1⟩ := (clone_trace_ext cm cr (sizeOf cs + 1)).2.1 cs (by omega)
    { next := st.next + 1, memo := st.memo, trace := st.trace }
  rw [cloneU_fresh cm cr uid nm vol cs st h]
  refine ⟨tl1, ?_, ?_⟩
  · simp only at htl1 ⊢
    rw [htl1]
  · exact memoFind_append_self uid _ _

/-- Closed witness for C7 at a concrete one-cell universe and empty
memo. -/
theorem claim_C7_witness :
    memoFind 1 ([] : List (Nat × Univ)) = none ∧
    ∃ tl, ((cloneU false false
        (.mk 1 "" none [(5, Cell.mk 5 (fun _ => true) none none (.material 9))])
        ⟨100, [], []⟩).2).trace = [] ++ tl ++ [.registerEv 1] ∧
      memoFind 1 ((cloneU false false
        (.mk 1 "" none [(5, Cell.mk 5 (fun _ => true) none none (.material 9))])
        ⟨100, [], []⟩).2).memo =
        some (cloneU false false
        (.mk 1 "" none [(5, Cell.mk 5 (fun _ => true) none none (.material 9))])
        ⟨100, [], []⟩).1 :=
  ⟨rfl, claim_C7 false false 1 "" none _ ⟨100, [], []⟩ rfl⟩

/-!
Instance path enumeration (`Universe._determine_paths`).  The mutable
accumulator fields `_num_instances` / `_paths` living on Cell and
Material objects are collected into one explicit state, keyed by the
object's id (object identity coincides with the id under the model
convention that ids are unique).  The distributed-material lookup
`fill[cell._num_instances]` raises `IndexError` when the counter exceeds
the list, so the traversal returns in an error monad.
-/

/-- The accumulator state of a path enumeration: per-cell and
per-material instance counters and path lists. -/
structure PathState : Type where
  cellInst : Nat → Nat
  cellPaths : Nat → List String
  matInst : Nat → Nat
  matPaths : Nat → List String

/-- The zeroed state before a fresh enumeration. -/
def zeroPathState : PathState :=
  { cellInst := fun _ => 0, cellPaths := fun _ => [],
    matInst := fun _ => 0, matPaths := fun _ => [] }

/-- The tail of the loop body: `cell._num_instances += 1` always, and
`cell._paths.append(cell_path)` unless instances-only mode is on. -/
def recordCell (cid : Nat) (cp : String) (only : Bool) (s : PathState) : PathState :=
  { s with
    cellInst := fun i => if i = cid then s.cellInst i + 1 else s.cellInst i,
    cellPaths := if only then s.cellPaths
      else fun i => if i = cid then s.cellPaths i ++ [cp] else s.cellPaths i }

/-- The material branch: `mat._num_instances += 1` always, and
`mat._paths.append(cell_path + "->m" + str(mat.id))` unless
instances-only mode is on. -/
def recordMat (m : Nat) (cp : String) (only : Bool) (s : PathState) : PathState :=
  { s with
    matInst := fun i => if i = m then s.matInst i + 1 else s.matInst i,
    matPaths := if only then s.matPaths
      else fun i => if i = m then s.matPaths i ++ [cp ++ "->m" ++ Nat.repr m] else s.matPaths i }

/-- The `",".join(str(x) for x in index)` of the lattice path. -/
def joinIdx : List Int → String
  | [] => ""
  | [x] => toString x
  | x :: xs => toString x ++ "," ++ joinIdx xs

mutual

/-- The source's `Universe._determine_paths(path, instances_only)`: build this
universe's path prefix and walk the cells in insertion order. -/
def dpU : Univ → String → Bool → PathState → Except String PathState
  | .mk uid _ _ cs, pth, only, s => dpCells cs (pth ++ "u" ++ Nat.repr uid) only s
termination_by structural u => u

/-- The `for cell in self.cells.values()` loop: compose the cell path,
dispatch on the fill type, then record the cell itself. -/
def dpCells : List (Nat × Cell) → String → Bool → PathState → Except String PathState
  | [], _, _, s => .ok s
  | (_, .mk cid _ _ _ f) :: rest, up, only, s =>
    match dpFill f cid (up ++ "->c" ++ Nat.repr cid) only s with
    | .error e => .error e
    | .ok s1 => dpCells rest up only (recordCell cid (up ++ "->c" ++ Nat.repr cid) only s1)
termination_by structural cs => cs

/-- Dispatch on the fill type of the current cell: a filling universe is
entered with `cell_path + "->"`, a lattice walks its natural indices, a
material records itself, a distributed material records the list entry at
the cell's current instance counter (`IndexError` past the end), void has
no material side effect. -/
def dpFill : Fill → Nat → String → Bool → PathState → Except String PathState
  | .funiv v, _, cp, only, s => dpU v (cp ++ "->") only s
  | .flat (.mk lid slots), _, cp, only, s => dpSlots slots lid cp only s
  | .material m, _, cp, only, s => .ok (recordMat m cp only s)
  | .distribmat mats, cid, cp, only, s =>
    match mats.get? (s.cellInst cid) with
    | some m => .ok (recordMat m cp only s)
    | none => .error "IndexError: list index out of range"
  | .void, _, _, _, s => .ok s
termination_by structural f => f

/-- The lattice branch: for every natural index, compose the lattice
path and recurse into the universe at that slot. -/
def dpSlots : List (List Int × Univ) → Nat → String → Bool → PathState → Except String PathState
  | [], _, _, _, s => .ok s
  | (idx, v) :: rest, lid, cp, only, s =>
    match dpU v (cp ++ "->l" ++ Nat.repr lid ++ "(" ++ joinIdx idx ++ ")->") only s with
    | .error e => .error e
    | .ok s1 => dpSlots rest lid cp only s1
termination_by structural sl => sl

end

mutual

/-- Number of occurrences of the cell id `i` in the traversal from a
universe: one per concrete traversal path from the root. -/
def occU : Univ → Nat → Nat
  | .mk _ _ _ cs, i => occCells cs i
termination_by structural u => u

/-- Occurrences of cell id `i` along a cell list. -/
def occCells : List (Nat × Cell) → Nat → Nat
  | [], _ => 0
  | (_, .mk cid _ _ _ f) :: rest, i =>
    occFill f i + (if cid = i then 1 else 0) + occCells rest i
termination_by structural cs => cs

/-- Occurrences of cell id `i` inside a fill. -/
def occFill : Fill → Nat → Nat
  | .funiv v, i => occU v i
  | .flat (.mk _ slots), i => occSlots slots i
  | .material _, _ => 0
  | .distribmat _, _ => 0
  | .void, _ => 0
termination_by structural f => f

/-- Occurrences of cell id `i` across lattice slots. -/
def occSlots : List (List Int × Univ) → Nat → Nat
  | [], _ => 0
  | (_, v) :: rest, i => occU v i + occSlots rest i
termination_by structural sl => sl

end

/-- Shape of every path string recorded for cell id `i`: some prefix,
then the direct parent universe component, then this cell's component. -/
def cellPathShape (i : Nat) (x : String) : Prop :=
  ∃ q w, x = q ++ "u" ++ Nat.repr w ++ "->c" ++ Nat.repr i

/-- Shape of a universe path prefix handed to the cell loop. -/
def univPathShape (up : String) : Prop :=
  ∃ q w, up = q ++ "u" ++ Nat.repr w

/-- Effect of one traversal on the per-cell accumulators: each counter
grows by the occurrence count, the path list gains exactly that many
entries of the right shape (none in instances-only mode). -/
def CountsOk (occf : Nat → Nat) (only : Bool) (s s' : PathState) : Prop :=
  ∀ i, s'.cellInst i = s.cellInst i + occf i ∧
    (only = false → ∃ new, s'.cellPaths i = s.cellPaths i ++ new ∧
      new.length = occf i ∧ ∀ x ∈ new, cellPathShape i x) ∧
    (only = true → s'.cellPaths i = s.cellPaths i)

theorem CountsOk.zero (only : Bool) (s : PathState) :
    CountsOk (fun _ => 0) only s s :=
  fun _ => ⟨by simp, fun _ => ⟨[], by simp, rfl, by simp⟩, fun _ => rfl⟩

theorem CountsOk.trans {f g : Nat → Nat} {only : Bool} {s s1 s2 : PathState}
    (h1 : CountsOk f only s s1) (h2 : CountsOk g only s1 s2) :
    CountsOk (fun i => f i + g i) only s s2 := by
  intro i
  obtain ⟨hi1, hp1, ht1⟩ := h1 i
  obtain ⟨hi2, hp2, ht2⟩ := h2 i
  refine ⟨show s2.cellInst i = s.cellInst i + (f i + g i) by omega, ?_, ?_⟩
  · intro ho
    obtain ⟨n1, he1, hl1, hs1⟩ := hp1 ho
    obtain ⟨n2, he2, hl2, hs2⟩ := hp2 ho
    refine ⟨n1 ++ n2, by rw [he2, he1, List.append_assoc], by simp [hl1, hl2], ?_⟩
    intro x hx
    rcases List.mem_append.mp hx with h | h
    · exact hs1 x h
    · exact hs2 x h
  · intro ho
    rw [ht2 ho, ht1 ho]

theorem CountsOk.congr {f g : Nat → Nat} {only : Bool} {s s' : PathState}
    (h : CountsOk f only s s') (hfg : ∀ i, f i = g i) : CountsOk g only s s' := by
  intro i
  obtain ⟨h1, h2, h3⟩ := h i
  refine ⟨by rw [← hfg i]; exact h1, ?_, h3⟩
  intro ho
  obtain ⟨new, he, hl, hs⟩ := h2 ho
  exact ⟨new, he, by rw [← hfg i]; exact hl, hs⟩

theorem CountsOk.record (cid : Nat) (cp : String) (only : Bool) (s : PathState)
    (h : cellPathShape cid cp) :
    CountsOk (fun i => if cid = i then 1 else 0) only s (recordCell cid cp only s) := by
  intro i
  by_cases hic : i = cid
  · subst hic
    refine ⟨by simp [recordCell], ?_, ?_⟩
    · intro ho
      subst ho
      exact ⟨[cp], by simp [recordCell], by simp, by simpa using h⟩
    · intro ho
      subst ho
      simp [recordCell]
  · have hci : ¬ cid = i := fun hh => hic hh.symm
    refine ⟨by simp [recordCell, hic, hci], ?_, ?_⟩
    · intro ho
      subst ho
      exact ⟨[], by simp [recordCell, hic], by simp [hci], by simp⟩
    · intro ho
      subst ho
      simp [recordCell]

theorem CountsOk.recordMatStep (m : Nat) (cp : String) (only : Bool) (s : PathState) :
    CountsOk (fun _ => 0) only s (recordMat m cp only s) :=
  fun _ => ⟨by simp [recordMat], fun _ => ⟨[], by simp [recordMat], rfl, by simp⟩,
    fun _ => by simp [recordMat]⟩

theorem dpU_mk (uid : Nat) (nm : String) (vol : Option ℚ) (cs : List (Nat × Cell))
    (pth : String) (only : Bool) (s : PathState) :
    dpU (.mk uid nm vol cs) pth only s = dpCells cs (pth ++ "u" ++ Nat.repr uid) only s := by
  rw [dpU.eq_def]

theorem dpCells_nil (up : String) (only : Bool) (s : PathState) :
    dpCells [] up only s = .ok s := by
  rw [dpCells.eq_def]

theorem dpCells_cons (k cid : Nat) (reg : PointQ → Bool) (tr : Option Vec3)
    (rot : Option Mat3) (f : Fill) (rest : List (Nat × Cell))
    (up : String) (only : Bool) (s : PathState) :
    dpCells ((k, .mk cid reg tr rot f) :: rest) up only s =
      match dpFill f cid (up ++ "->c" ++ Nat.repr cid) only s with
      | .error e => .error e
      | .ok s1 => dpCells rest up only (recordCell cid (up ++ "->c" ++ Nat.repr cid) only s1) := by
  rw [dpCells.eq_def]

theorem dpFill_funiv (v : Univ) (cid : Nat) (cp : String) (only : Bool) (s : PathState) :
    dpFill (.funiv v) cid cp only s = dpU v (cp ++ "->") only s := by
  rw [dpFill.eq_def]

theorem dpFill_flat (lid : Nat) (slots : List (List Int × Univ)) (cid : Nat)
    (cp : String) (only : Bool) (s : PathState) :
    dpFill (.flat (.mk lid slots)) cid cp only s = dpSlots slots lid cp only s := by
  rw [dpFill.eq_def]

theorem dpFill_material (m : Nat) (cid : Nat) (cp : String) (only : Bool) (s : PathState) :
    dpFill (.material m) cid cp only s = .ok (recordMat m cp only s) := by
  rw [dpFill.eq_def]

theorem dpFill_distribmat (mats : List Nat) (cid : Nat) (cp : String) (only : Bool)
    (s : PathState) :
    dpFill (.distribmat mats) cid cp only s =
      match mats.get? (s.cellInst cid) with
      | some m => .ok (recordMat m cp only s)
      | none => .error "IndexError: list index out of range" := by
  rw [dpFill.eq_def]

theorem dpFill_void (cid : Nat) (cp : String) (only : Bool) (s : PathState) :
    dpFill .void cid cp only s = .ok s := by
  rw [dpFill.eq_def]

theorem dpSlots_nil (lid : Nat) (cp : String) (only : Bool) (s : PathState) :
    dpSlots [] lid cp only s = .ok s := by
  rw [dpSlots.eq_def]

theorem dpSlots_cons (idx : List Int) (v : Univ) (rest : List (List Int × Univ))
    (lid : Nat) (cp : String) (only : Bool) (s : PathState) :
    dpSlots ((idx, v) :: rest) lid cp only s =
      match dpU v (cp ++ "->l" ++ Nat.repr lid ++ "(" ++ joinIdx idx ++ ")->") only s with
      | .error e => .error e
      | .ok s1 => dpSlots rest lid cp only s1 := by
  rw [dpSlots.eq_def]

theorem occU_mk (uid : Nat) (nm : String) (vol : Option ℚ) (cs : List (Nat × Cell)) (i : Nat) :
    occU (.mk uid nm vol cs) i = occCells cs i := by
  rw [occU.eq_def]

theorem occCells_nil (i : Nat) : occCells [] i = 0 := by
  rw [occCells.eq_def]

theorem occCells_cons (k cid : Nat) (reg : PointQ → Bool) (tr : Option Vec3)
    (rot : Option Mat3) (f : Fill) (rest : List (Nat × Cell)) (i : Nat) :
    occCells ((k, .mk cid reg tr rot f) :: rest) i =
      occFill f i + (if cid = i then 1 else 0) + occCells rest i := by
  rw [occCells.eq_def]

theorem occFill_funiv (v : Univ) (i : Nat) : occFill (.funiv v) i = occU v i := by
  rw [occFill.eq_def]

theorem occFill_flat (lid : Nat) (slots : List (List Int × Univ)) (i : Nat) :
    occFill (.flat (.mk lid slots)) i = occSlots slots i := by
  rw [occFill.eq_def]

theorem occFill_material (m i : Nat) : occFill (.material m) i = 0 := by
  rw [occFill.eq_def]

theorem occFill_distribmat (ms : List Nat) (i : Nat) : occFill (.distribmat ms) i = 0 := by
  rw [occFill.eq_def]

theorem occFill_void (i : Nat) : occFill .void i = 0 := by
  rw [occFill.eq_def]

theorem occSlots_nil (i : Nat) : occSlots [] i = 0 := by
  rw [occSlots.eq_def]

theorem occSlots_cons (idx : List Int) (v : Univ) (rest : List (List Int × Univ)) (i : Nat) :
    occSlots ((idx, v) :: rest) i = occU v i + occSlots rest i := by
  rw [occSlots.eq_def]

/-- Main accounting lemma of the path enumerator, by strong induction on
the size of the traversed object. -/
theorem dp_counts (only : Bool) (n : Nat) :
    (∀ u : Univ, sizeOf u < n → ∀ pth s s', dpU u pth only s = .ok s' →
      CountsOk (occU u) only s s') ∧
    (∀ cs : List (Nat × Cell), sizeOf cs < n → ∀ up s s', univPathShape up →
      dpCells cs up only s = .ok s' → CountsOk (occCells cs) only s s') ∧
    (∀ f : Fill, sizeOf f < n → ∀ cid cp s s', dpFill f cid cp only s = .ok s' →
      CountsOk (occFill f) only s s') ∧
    (∀ sl : List (List Int × Univ), sizeOf sl < n → ∀ lid cp s s',
      dpSlots sl lid cp only s = .ok s' → CountsOk (occSlots sl) only s s') := by
  induction n using Nat.strong_induction_on with
  | _ n ih =>
    refine ⟨?_, ?_, ?_, ?_⟩
    · intro u hu pth s s' hok
      obtain ⟨uid, nm, vol, cs⟩ := u
      rw [dpU_mk] at hok
      have hcs : sizeOf cs < sizeOf (Univ.mk uid nm vol cs) := by
        simp [Univ.mk.sizeOf_spec]
      have := (ih _ hu).2.1 cs hcs _ s s' ⟨pth, uid, rfl⟩ hok
      exact this.congr fun i => (occU_mk uid nm vol cs i).symm
    · intro cs hcs up s s' hshape hok
      cases cs with
      | nil =>
        rw [dpCells_nil] at hok
        cases hok
        exact (CountsOk.zero only s).congr fun i => (occCells_nil i).symm
      | cons hd rest =>
        obtain ⟨k, c⟩ := hd
        obtain ⟨cid, reg, tr, rot, f⟩ := c
        rw [dpCells_cons] at hok
        have hf : sizeOf f < sizeOf ((k, Cell.mk cid reg tr rot f) :: rest) := by
          simp
          omega
        have hrest : sizeOf rest < sizeOf ((k, Cell.mk cid reg tr rot f) :: rest) := by
          simp
        cases hfill : dpFill f cid (up ++ "->c" ++ Nat.repr cid) only s with
        | error e => rw [hfill] at hok; cases hok
        | ok s1 =>
          rw [hfill] at hok
          have h1 := (ih _ hcs).2.2.1 f hf cid _ s s1 hfill
          have hcp : cellPathShape cid (up ++ "->c" ++ Nat.repr cid) := by
            obtain ⟨q, w, hq⟩ := hshape
            exact ⟨q, w, by rw [hq]⟩
          have h2 := CountsOk.record cid (up ++ "->c" ++ Nat.repr cid) only s1 hcp
          have h3 := (ih _ hcs).2.1 rest hrest up _ s' hshape hok
          exact ((h1.trans h2).trans h3).congr fun i =>
            (occCells_cons k cid reg tr rot f rest i).symm
    · intro f hf cid cp s s' hok
      cases f with
      | funiv v =>
        rw [dpFill_funiv] at hok
        have hv : sizeOf v < sizeOf (Fill.funiv v) := by
          simp
        have := (ih _ hf).1 v hv _ s s' hok
        exact this.congr fun i => (occFill_funiv v i).symm
      | flat l =>
        obtain ⟨lid, slots⟩ := l
        rw [dpFill_flat] at hok
        have hsl : sizeOf slots < sizeOf (Fill.flat (Lat.mk lid slots)) := by
          simp
          omega
        have := (ih _ hf).2.2.2 slots hsl lid cp s s' hok
        exact this.congr fun i => (occFill_flat lid slots i).symm
      | material m =>
        rw [dpFill_material] at hok
        cases hok
        exact (CountsOk.recordMatStep m cp only s).congr fun i => (occFill_material m i).symm
      | distribmat ms =>
        rw [dpFill_distribmat] at hok
        cases hget : ms.get? (s.cellInst cid) with
        | none => rw [hget] at hok; cases hok
        | some m =>
          rw [hget] at hok
          cases hok
          exact (CountsOk.recordMatStep m cp only s).congr fun i =>
            (occFill_distribmat ms i).symm
      | void =>
        rw [dpFill_void] at hok
        cases hok
        exact (CountsOk.zero only s).congr fun i => (occFill_void i).symm
    · intro sl hsl lid cp s s' hok
      cases sl with
      | nil =>
        rw [dpSlots_nil] at hok
        cases hok
        exact (CountsOk.zero only s).congr fun i => (occSlots_nil i).symm
      | cons hd rest =>
        obtain ⟨idx, v⟩ := hd
        rw [dpSlots_cons] at hok
        have hv : sizeOf v < sizeOf ((idx, v) :: rest) := by
          simp
          omega
        have hrest : sizeOf rest < sizeOf ((idx, v) :: rest) := by
          simp
        cases hu : dpU v (cp ++ "->l" ++ Nat.repr lid ++ "(" ++ joinIdx idx ++ ")->") only s with
        | error e => rw [hu] at hok; cases hok
        | ok s1 =>
          rw [hu] at hok
          have h1 := (ih _ hsl).1 v hv _ s s1 hu
          have h2 := (ih _ hsl).2.2.2 rest hrest lid cp s1 s' hok
          exact (h1.trans h2).congr fun i => (occSlots_cons idx v rest i).symm

/-- C5.  One call of the instance-path enumerator from a root universe
increments `num_instances` by exactly one and appends exactly one path
string (of the form `...u<universe_id>->c<cell_id>`) on every cell, for
every concrete occurrence — one occurrence per distinct traversal path
from the root, so the same cell reached through two paths is counted
twice on the same accumulator (accumulators are keyed by cell id, which
renders object identity).  When instances-only mode is requested, only
the path-string appending is skipped while the `num_instances` increment
still happens. -/
theorem claim_C5 (u : Univ) (pth : String) (only : Bool) (s s' : PathState)
    (hok : dpU u pth only s = .ok s') :
    ∀ i, s'.cellInst i = s.cellInst i + occU u i ∧
      (only = false → ∃ new, s'.cellPaths i = s.cellPaths i ++ new ∧
        new.length = occU u i ∧
        ∀ x ∈ new, ∃ q w, x = q ++ "u" ++ Nat.repr w ++ "->c" ++ Nat.repr i) ∧
      (only = true → s'.cellPaths i = s.cellPaths i) :=
  (dp_counts only (sizeOf u + 1)).1 u (by omega) pth s s' hok

/-- A one-cell universe with a material fill, for the C5 witness. -/
def dpU0 : Univ := .mk 1 "" none [(3, Cell.mk 3 (fun _ => true) none none (.material 9))]

/-- The state produced by enumerating `dpU0` from the zeroed state. -/
def dpW0 : PathState := recordCell 3 "u1->c3" false (recordMat 9 "u1->c3" false zeroPathState)

/-- Closed witness for C5: enumerating the one-cell universe once from
the zeroed state increments the cell's counter by its single occurrence
and appends one path of the stated shape. -/
theorem claim_C5_witness :
    dpU dpU0 "" false zeroPathState = .ok dpW0 ∧
    dpW0.cellInst 3 = zeroPathState.cellInst 3 + occU dpU0 3 ∧
    (∃ new, dpW0.cellPaths 3 = zeroPathState.cellPaths 3 ++ new ∧
      new.length = occU dpU0 3 ∧
      ∀ x ∈ new, ∃ q w, x = q ++ "u" ++ Nat.repr w ++ "->c" ++ Nat.repr 3) :=
  ⟨rfl, (claim_C5 dpU0 "" false zeroPathState dpW0 rfl 3).1,
    (claim_C5 dpU0 "" false zeroPathState dpW0 rfl 3).2.1 rfl⟩

/-- The distributed-material cell of the C6 family (cell id 3). -/
def dmCell (mats : List Nat) : Cell := .mk 3 (fun _ => true) none none (.distribmat mats)

/-- A universe holding just the distributed-material cell (id 2). -/
def dmW (mats : List Nat) : Univ := .mk 2 "" none [(3, dmCell mats)]

/-- Lattice slots `0, 1, ..., nSlots-1`, each filled with the same
shared universe `dmW mats`. -/
def dmSlots (mats : List Nat) (nSlots : Nat) : List (List Int × Univ) :=
  (List.range nSlots).map fun j => ([Int.ofNat j], dmW mats)

/-- Root universe of the family: a single cell (id 5) filled with a
lattice (id 4) whose every slot holds `dmW mats`. -/
def dmTop (mats : List Nat) (nSlots : Nat) : Univ :=
  .mk 1 "" none [(5, .mk 5 (fun _ => true) none none (.flat (.mk 4 (dmSlots mats nSlots))))]

/-- Cell path of the distributed-material cell at lattice slot `j`. -/
def dmCp3 (j : Nat) : String :=
  "u1->c5" ++ "->l" ++ Nat.repr 4 ++ "(" ++ joinIdx [Int.ofNat j] ++ ")->" ++
    "u" ++ Nat.repr 2 ++ "->c" ++ Nat.repr 3

/-- Path string recorded on material `m` for the occurrence at lattice
slot `j`. -/
def dmEntry (j m : Nat) : String := dmCp3 j ++ "->m" ++ Nat.repr m

theorem dmW_step (mats : List Nat) (m j : Nat) (s : PathState)
    (hj : s.cellInst 3 = j) (hm : mats.get? j = some m) :
    dpU (dmW mats) ("u1->c5" ++ "->l" ++ Nat.repr 4 ++ "(" ++ joinIdx [Int.ofNat j] ++ ")->")
        false s =
      .ok (recordCell 3 (dmCp3 j) false (recordMat m (dmCp3 j) false s)) := by
  show dpU (.mk 2 "" none [(3, .mk 3 (fun _ => true) none none (.distribmat mats))]) _ false s = _
  rw [dpU_mk, dpCells_cons, dpFill_distribmat, hj, hm]
  simp [dpCells_nil, dmCp3]

theorem dmSlots_spec (mats : List Nat) : ∀ (r j : Nat) (s : PathState),
    s.cellInst 3 = j → j + r ≤ mats.length →
    ∃ s', dpSlots ((List.range' j r).map fun t => ([Int.ofNat t], dmW mats)) 4 "u1->c5" false s =
        .ok s' ∧
      s'.cellInst 3 = j + r ∧
      (∀ i, ∃ ext, s'.matPaths i = s.matPaths i ++ ext) ∧
      (∀ k m, k < r → mats.get? (j + k) = some m → dmEntry (j + k) m ∈ s'.matPaths m) := by
  intro r
  induction r with
  | zero =>
    intro j s hj _
    refine ⟨s, ?_, by omega, fun i => ⟨[], by simp⟩, by omega⟩
    have hr : List.range' j 0 = [] := rfl
    rw [hr]
    simp [dpSlots_nil]
  | succ r ihr =>
    intro j s hj hlen
    have hjlen : j < mats.length := by omega
    obtain ⟨m, hm⟩ : ∃ m, mats.get? j = some m :=
      ⟨mats.get ⟨j, hjlen⟩, List.get?_eq_get hjlen⟩
    have hr : List.range' j (r + 1) = j :: List.range' (j + 1) r := rfl
    rw [hr, List.map_cons, dpSlots_cons, dmW_step mats m j s hj hm]
    have hb : (recordCell 3 (dmCp3 j) false (recordMat m (dmCp3 j) false s)).cellInst 3 =
        j + 1 := by
      simp [recordCell, recordMat, hj]
    obtain ⟨s', hok, hinst, hext, hmem⟩ :=
      ihr (j + 1) (recordCell 3 (dmCp3 j) false (recordMat m (dmCp3 j) false s)) hb (by omega)
    have hbm : ∀ i, (recordCell 3 (dmCp3 j) false (recordMat m (dmCp3 j) false s)).matPaths i =
        if i = m then s.matPaths i ++ [dmEntry j m] else s.matPaths i := by
      intro i
      by_cases him : i = m <;> simp [recordCell, recordMat, dmEntry, him]
    refine ⟨s', by simpa using hok, by omega, ?_, ?_⟩
    · intro i
      obtain ⟨ext, hext1⟩ := hext i
      by_cases him : i = m
      · subst him
        exact ⟨[dmEntry j i] ++ ext, by rw [hext1, hbm i, if_pos rfl, List.append_assoc]⟩
      · exact ⟨ext, by rw [hext1, hbm i, if_neg him]⟩
    · intro k mk hk hmk
      cases k with
      | zero =>
        have hmm : mk = m := by
          rw [Nat.add_zero] at hmk
          rw [hm] at hmk
          exact (Option.some_inj.mp hmk).symm
        subst hmm
        obtain ⟨ext, hext1⟩ := hext mk
        rw [Nat.add_zero, hext1, hbm mk, if_pos rfl]
        simp
      | succ k =>
        have hkk : j + (k + 1) = (j + 1) + k := by omega
        rw [hkk]
        exact hmem k mk (by omega) (by rw [← hkk]; exact hmk)

/-- C6.  First conjunct (general, every geometry): visiting a cell whose
fill is a distributed material reads the list at the index equal to the
cell's `num_instances` counter at the moment of the visit — the state `s`
before the cell's own `recordCell` increment, which is applied only
afterwards — and raises `IndexError` past the end of the list.  Second
conjunct (left-to-right depth-first enumeration from zeroed counters,
for every list of materials and every slot count): the k-th occurrence
of the cell receives the material at list position k, witnessed by the
recorded path string naming slot k on that material's path list. -/
theorem claim_C6 :
    (∀ (k cid : Nat) (reg : PointQ → Bool) (tr : Option Vec3) (rot : Option Mat3)
      (mats : List Nat) (rest : List (Nat × Cell)) (up : String) (only : Bool) (s : PathState),
      dpCells ((k, .mk cid reg tr rot (.distribmat mats)) :: rest) up only s =
        match mats.get? (s.cellInst cid) with
        | some m => dpCells rest up only
            (recordCell cid (up ++ "->c" ++ Nat.repr cid) only
              (recordMat m (up ++ "->c" ++ Nat.repr cid) only s))
        | none => .error "IndexError: list index out of range") ∧
    (∀ (mats : List Nat) (nSlots : Nat), nSlots ≤ mats.length →
      ∃ s', dpU (dmTop mats nSlots) "" false zeroPathState = .ok s' ∧
        ∀ k m, k < nSlots → mats.get? k = some m → dmEntry k m ∈ s'.matPaths m) := by
  constructor
  · intro k cid reg tr rot mats rest up only s
    rw [dpCells_cons, dpFill_distribmat]
    cases hget : mats.get? (s.cellInst cid) <;> simp [hget]
  · intro mats nSlots hlen
    have hz : zeroPathState.cellInst 3 = 0 := rfl
    obtain ⟨s1, hok, hinst, hext, hmem⟩ := dmSlots_spec mats nSlots 0 zeroPathState hz (by omega)
    refine ⟨recordCell 5 "u1->c5" false s1, ?_, ?_⟩
    · show dpU (.mk 1 "" none
        [(5, .mk 5 (fun _ => true) none none (.flat (.mk 4 (dmSlots mats nSlots))))]) "" false
          zeroPathState = _
      rw [dpU_mk, dpCells_cons, dpFill_flat]
      have hcp : ("" ++ "u" ++ Nat.repr 1) ++ "->c" ++ Nat.repr 5 = "u1->c5" := rfl
      rw [hcp]
      have hslots : dmSlots mats nSlots =
          (List.range' 0 nSlots).map fun t => ([Int.ofNat t], dmW mats) := by
        rw [dmSlots, List.range_eq_range']
      rw [hslots, hok]
      simp [dpCells_nil]
    · intro k m hk hm
      have : (recordCell 5 "u1->c5" false s1).matPaths = s1.matPaths := rfl
      rw [this]
      have h0k : 0 + k = k := by omega
      have := hmem k m hk (by rw [h0k]; exact hm)
      rwa [h0k] at this

/-- Closed witness for C6: a two-slot lattice over the shared
distributed-material universe with material list `[7, 8]`; the
enumeration succeeds and occurrence `k` records material at position
`k`. -/
theorem claim_C6_witness :
    (2 ≤ ([7, 8] : List Nat).length) ∧
    (∃ s', dpU (dmTop [7, 8] 2) "" false zeroPathState = .ok s' ∧
      ∀ k m, k < 2 → ([7, 8] : List Nat).get? k = some m → dmEntry k m ∈ s'.matPaths m) :=
  ⟨by decide, claim_C6.2 [7, 8] 2 (by decide)⟩

end OpenMC
